import Mathlib

/-!
Verification of the pathfish extraction-and-verification core (src/core.ts,
src/cli.ts).  The TypeScript source is embedded shallowly: strings are
`List Char` internally (wrapped to `String` at the API boundary), the
JavaScript regular expressions used by the source are transcribed into a
small backtracking matcher whose combinators mirror the regex syntax
construct by construct, and the filesystem (directory walk, existence
probes) is passed in explicitly as data.
-/

namespace Pathfish

/-! ## Character classes (JS regex semantics, no `u` flag: ASCII `\w`, `\d`) -/

/-- JS `\s` whitespace set (also used by `String.prototype.trim`). -/
def isJsWs (c : Char) : Bool :=
  c = ' ' || c = '\t' || c = '\n' || c = '\r' || c = '\x0b' || c = '\x0c' ||
  c.toNat = 0xa0 || c.toNat = 0x1680 ||
  (0x2000 ≤ c.toNat && c.toNat ≤ 0x200a) ||
  c.toNat = 0x2028 || c.toNat = 0x2029 || c.toNat = 0x202f ||
  c.toNat = 0x205f || c.toNat = 0x3000 || c.toNat = 0xfeff

/-- JS `\w`: `[A-Za-z0-9_]`. -/
def isWordChar (c : Char) : Bool := c.isAlphanum || c = '_'

/-- JS `.` without the `s` flag: any char except line terminators. -/
def isDotChar (c : Char) : Bool :=
  !(c = '\n' || c = '\r' || c.toNat = 0x2028 || c.toNat = 0x2029)

/-- Path separators `[\\\/]`. -/
def isSepChar (c : Char) : Bool := c = '/' || c = '\\'

/-- `[^\s\n]` (the `\n` is redundant since `\s` contains it). -/
def nonSpace (c : Char) : Bool := !isJsWs c

/-- `[^\s\n"']`. -/
def nonSpaceQuote (c : Char) : Bool := !isJsWs c && c ≠ '"' && c ≠ '\''

/-- `[a-f0-9]` with the `i` flag: hexadecimal digit, either case. -/
def isHexI (c : Char) : Bool :=
  c.isDigit || ('a' ≤ c && c ≤ 'f') || ('A' ≤ c && c ≤ 'F')

/-! ## Backtracking regex engine

A matcher takes a state `(prev, rest)` — `prev` is the already-consumed text
reversed (needed for lookbehind and `\b`) and `rest` the remaining input —
and returns the possible post-match states in backtracking priority order
(greedy: longest continuation first).  `matchFirst` takes the first success,
exactly as a JS backtracking engine commits to the first derivation. -/

abbrev RState := List Char × List Char

abbrev M := RState → List RState

/-- Empty pattern. -/
def mEps : M := fun st => [st]

/-- Sequencing: all continuations of `a`, each extended by `b`, in priority
order (list order = backtracking order). -/
def mSeq (a b : M) : M := fun st => (a st).flatMap b

/-- Alternation: alternatives of `a` are preferred over those of `b`. -/
def mAlt (a b : M) : M := fun st => a st ++ b st

/-- A single literal character. -/
def mChr (c : Char) : M := fun st =>
  match st with
  | (pv, x :: xs) => if x = c then [(x :: pv, xs)] else []
  | (_, []) => []

/-- A single character from a class. -/
def mCls (f : Char → Bool) : M := fun st =>
  match st with
  | (pv, x :: xs) => if f x then [(x :: pv, xs)] else []
  | (_, []) => []

/-- A literal string. -/
def mStr : List Char → M
  | [] => mEps
  | c :: cs => mSeq (mChr c) (mStr cs)

/-- Greedy `?`. -/
def mOpt (a : M) : M := fun st => a st ++ [st]

/-- States after consuming a maximal run of class characters, then ever
shorter runs, down to the empty run: the greedy priority order of `cls*`.
The accumulator collects the shorter runs (lowest priority last). -/
def clsStarGo (f : Char → Bool) : List Char → List Char → List RState → List RState
  | pv, c :: r, acc =>
      if f c then clsStarGo f (c :: pv) r ((pv, c :: r) :: acc)
      else (pv, c :: r) :: acc
  | pv, [], acc => (pv, []) :: acc

/-- Greedy `cls*` over a character class. -/
def mClsStar (f : Char → Bool) : M := fun st => clsStarGo f st.1 st.2 []

/-- Greedy `cls+` over a character class (drop the zero-length run). -/
def mClsPlus (f : Char → Bool) : M := fun st => (clsStarGo f st.1 st.2 []).dropLast

/-- Greedy `cls{lo,}` / `cls{lo,hi}` over a character class. -/
def mClsRep (f : Char → Bool) (lo : Nat) (hi : Option Nat) : M := fun st =>
  (clsStarGo f st.1 st.2 []).filter (fun st2 =>
    let n := st.2.length - st2.2.length
    lo ≤ n && (match hi with | some h => n ≤ h | none => true))

/-- Greedy `(?:...)*` over a compound matcher; each iteration must consume
input (a JS engine aborts a star on an empty iteration).  Fuel bounds the
recursion; `mStar` supplies `rest.length + 1`, enough for any derivation. -/
def mStarFuel (a : M) : Nat → M
  | 0 => fun st => [st]
  | fuel + 1 => fun st =>
      ((a st).filter (fun st2 => st2.2.length < st.2.length)).flatMap
        (mStarFuel a fuel) ++ [st]

/-- Greedy `(?:...)*`. -/
def mStar (a : M) : M := fun st => mStarFuel a (st.2.length + 1) st

/-- End-of-input anchor `$` (no `m` flag). -/
def mEnd : M := fun st => if st.2.isEmpty then [st] else []

/-- Is the optional character a word character (absent = not a word char)? -/
def wordOpt : Option Char → Bool
  | some c => isWordChar c
  | none => false

/-- Word boundary `\b`: exactly one side of the position is a word char. -/
def mWordB : M := fun st =>
  if wordOpt st.1.head? ≠ wordOpt st.2.head? then [st] else []

/-- Negative lookahead `(?!...)`: succeeds, consuming nothing, iff the inner
matcher has no derivation here. -/
def mNegLa (a : M) : M := fun st => if (a st).isEmpty then [st] else []

/-- Positive lookbehind `(?<=\s)`: the previous character is whitespace. -/
def mLbWs : M := fun st =>
  match st.1.head? with
  | some c => if isJsWs c then [st] else []
  | none => []

/-- First (highest-priority) match at the current position, as the number of
characters consumed. -/
def matchFirst (m : M) (pv r : List Char) : Option Nat :=
  match m (pv, r) with
  | [] => none
  | st :: _ => some (r.length - st.2.length)

/-- Leftmost match: scan positions left to right, returning the first
position (and its match length) where the matcher succeeds. -/
def findLeftmostGo (m : M) : List Char → List Char → Nat → Option (Nat × Nat)
  | pv, r, pos =>
    match matchFirst m pv r with
    | some n => some (pos, n)
    | none =>
      match r with
      | [] => none
      | c :: r' => findLeftmostGo m (c :: pv) r' (pos + 1)

def findLeftmost (m : M) (l : List Char) : Option (Nat × Nat) :=
  findLeftmostGo m [] l 0

/-- Prepend `l` reversed onto `acc` (to extend the `prev` component). -/
def revAppend : List Char → List Char → List Char
  | [], acc => acc
  | c :: r, acc => revAppend r (c :: acc)

/-- `String.prototype.matchAll` with the `g` flag: repeatedly take the
leftmost-first match and resume after it (a zero-length match would advance
by one, as JS bumps `lastIndex`; no alternative here can match empty). -/
def matchAllGo (m : M) : Nat → List Char → List Char → List (List Char)
  | 0, _, _ => []
  | fuel + 1, pv, r =>
    match matchFirst m pv r with
    | some n =>
      if n = 0 then
        match r with
        | [] => []
        | c :: r' => matchAllGo m fuel (c :: pv) r'
      else (r.take n) :: matchAllGo m fuel (revAppend (r.take n) pv) (r.drop n)
    | none =>
      match r with
      | [] => []
      | c :: r' => matchAllGo m fuel (c :: pv) r'

def matchAllM (m : M) (l : List Char) : List (List Char) :=
  matchAllGo m (l.length + 1) [] l

/-- Sequence a list of matchers. -/
def mSeqs (ms : List M) : M := ms.foldr mSeq mEps

/-! ## PATH_REGEX (src/core.ts)

The composed alternation, one definition per source alternative, in the
source's priority order. -/

/-- `[^,)]`. -/
def notCommaParen (c : Char) : Bool := c != ',' && c != ')'

/-- `[a-zA-Z0-9_.-]` (filename characters). -/
def isFNameChar (c : Char) : Bool :=
  c.isAlphanum || c = '_' || c = '.' || c = '-'

/-- Alternative 1, quoted paths with spaces:
`(?:"[^"]*[\\\/][^"]*"|'[^']*[\\\/][^']*')`. -/
def altQuoted : M :=
  mAlt
    (mSeqs [mChr '"', mClsStar (fun c => c != '"'), mCls isSepChar,
            mClsStar (fun c => c != '"'), mChr '"'])
    (mSeqs [mChr '\'', mClsStar (fun c => c != '\''), mCls isSepChar,
            mClsStar (fun c => c != '\''), mChr '\''])

/-- Alternative 2, parenthesized paths with spaces:
`\([^,)]*[\\\/][^,)]*\([^)]*\)[^,)]*\.[a-zA-Z0-9]+\)`. -/
def altParenNested : M :=
  mSeqs [mChr '(', mClsStar notCommaParen, mCls isSepChar, mClsStar notCommaParen,
         mChr '(', mClsStar (fun c => c != ')'), mChr ')', mClsStar notCommaParen,
         mChr '.', mClsPlus Char.isAlphanum, mChr ')']

/-- Alternative 3, Windows UNC paths:
`[\\\/]{2}[^\s\n]+[\\\/][^\s\n]+(?:[\\\/][^\s\n]+)*`. -/
def altUnc : M :=
  mSeqs [mCls isSepChar, mCls isSepChar, mClsPlus nonSpace, mCls isSepChar,
         mClsPlus nonSpace, mStar (mSeq (mCls isSepChar) (mClsPlus nonSpace))]

/-- Alternative 4, Windows absolute paths:
`[a-zA-Z]:[\\\/][^\s\n]+(?:[\\\/][^\s\n]+)*`. -/
def altDrive : M :=
  mSeqs [mCls Char.isAlpha, mChr ':', mCls isSepChar, mClsPlus nonSpace,
         mStar (mSeq (mCls isSepChar) (mClsPlus nonSpace))]

/-- Alternative 5, Unix absolute paths:
`\/[^\s\n"']+(?:[\\\/][^\s\n"']+)*`. -/
def altUnixAbs : M :=
  mSeqs [mChr '/', mClsPlus nonSpaceQuote,
         mStar (mSeq (mCls isSepChar) (mClsPlus nonSpaceQuote))]

/-- Alternative 6, relative paths with separators:
`(?:\.[\\/]|[^\s\n"']+[\\/])[^\s\n"']+(?:[\\\/][^\s\n"']+)*`. -/
def altRelative : M :=
  mSeqs [mAlt (mSeq (mChr '.') (mCls isSepChar))
              (mSeq (mClsPlus nonSpaceQuote) (mCls isSepChar)),
         mClsPlus nonSpaceQuote,
         mStar (mSeq (mCls isSepChar) (mClsPlus nonSpaceQuote))]

/-- Alternative 7: alternative 6 behind a `(?<=\s)` lookbehind. -/
def altRelativeWs : M := mSeq mLbWs altRelative

/-- `"http://"` reversed, for the backwards lookbehind scan. -/
def revHttp : List Char := "http://".data.reverse

/-- `"https://"` reversed. -/
def revHttps : List Char := "https://".data.reverse

/-- Does `https?:\/\/[^\s]*` match ending exactly at the current position?
`prev` is the consumed text reversed, so we skip non-space characters
backwards and look for the reversed scheme. -/
def hasSchemeEndingHere : List Char → Bool
  | [] => false
  | c :: t =>
    revHttp.isPrefixOf (c :: t) || revHttps.isPrefixOf (c :: t) ||
    (nonSpace c && hasSchemeEndingHere t)

/-- Negative lookbehind `(?<!@|https?:\/\/[^\s]*)`. -/
def mLbNotEmailUrl : M := fun st =>
  if st.1.head? = some '@' || hasSchemeEndingHere st.1 then [] else [st]

/-- Alternative 8, standalone filenames with extensions:
`(?<!@|https?:\/\/[^\s]*)\b[a-zA-Z0-9_.-]+\.[a-zA-Z0-9]{1,}\b(?!\s*@)(?![^"]*")`. -/
def altStandalone : M :=
  mSeqs [mLbNotEmailUrl, mWordB, mClsPlus isFNameChar, mChr '.',
         mClsPlus Char.isAlphanum, mWordB,
         mNegLa (mSeq (mClsStar isJsWs) (mChr '@')),
         mNegLa (mSeq (mClsStar (fun c => c != '"')) (mChr '"'))]

/-- Alternative 9, common filenames without extensions:
`\b(?:Dockerfile|Makefile|Jenkinsfile|Vagrantfile)\b`. -/
def altManifest : M :=
  mSeqs [mWordB,
         mAlt (mStr "Dockerfile".data)
           (mAlt (mStr "Makefile".data)
             (mAlt (mStr "Jenkinsfile".data) (mStr "Vagrantfile".data))),
         mWordB]

/-- The full PATH_REGEX alternation, in source order. -/
def pathRegexM : M :=
  mAlt altQuoted (mAlt altParenNested (mAlt altUnc (mAlt altDrive
    (mAlt altUnixAbs (mAlt altRelative (mAlt altRelativeWs
      (mAlt altStandalone altManifest)))))))

/-- Anchored test: does the matcher (which ends in `mEnd` for `^...$`
patterns) succeed starting at position 0? -/
def testAnchored (m : M) (l : List Char) : Bool := !(m ([], l)).isEmpty

/-! ## Cleanup chain (src/core.ts, step 3 of extractPathsWithRegex) -/

/-- `[:(]`. -/
def isColonParen (c : Char) : Bool := c = ':' || c = '('

/-- `[.,:]`. -/
def isDotCommaColon (c : Char) : Bool := c = '.' || c = ',' || c = ':'

/-- Trailing line/column locator: `[:(]\d+(?:[.,:]\d+)*\)?[:]?$`. -/
def locatorM : M :=
  mSeqs [mCls isColonParen, mClsPlus Char.isDigit,
         mStar (mSeq (mCls isDotCommaColon) (mClsPlus Char.isDigit)),
         mOpt (mChr ')'), mOpt (mChr ':'), mEnd]

/-- `pathStr.replace(/[:(]\d+(?:[.,:]\d+)*\)?[:]?$/, '')`: non-global
replace deletes the leftmost match (which necessarily runs to the end). -/
def stripLocator (l : List Char) : List Char :=
  match findLeftmost locatorM l with
  | some (i, _) => l.take i
  | none => l

/-- Query strings and fragments: `[?#].*$`. -/
def queryFragM : M :=
  mSeqs [mCls (fun c => c = '?' || c = '#'), mClsStar isDotChar, mEnd]

/-- `pathStr.replace(/[?#].*$/, '')`. -/
def stripQueryFragment (l : List Char) : List Char :=
  match findLeftmost queryFragM l with
  | some (i, _) => l.take i
  | none => l

/-- Leading punctuation set `^["'\[<{]+`. -/
def leadPunct (c : Char) : Bool :=
  c = '"' || c = '\'' || c = '[' || c = '<' || c = '\x7b'

/-- Trailing punctuation set `["'\]>.,;}]+$`. -/
def trailPunct (c : Char) : Bool :=
  c = '"' || c = '\'' || c = ']' || c = '>' || c = '.' || c = ',' ||
  c = ';' || c = '\x7d'

/-- `pathStr.slice(1, -1)`. -/
def sliceInner (l : List Char) : List Char := (l.drop 1).dropLast

/-- `startsWith a && endsWith b` on single characters. -/
def wrappedBy (a b : Char) (l : List Char) : Bool :=
  l.head? = some a && l.getLast? = some b

/-- Quote/parenthesis unwrapping, else punctuation stripping. -/
def unwrapOrStrip (l : List Char) : List Char :=
  if wrappedBy '"' '"' l || wrappedBy '\'' '\'' l then sliceInner l
  else if wrappedBy '(' ')' l then sliceInner l
  else ((l.dropWhile leadPunct).reverse.dropWhile trailPunct).reverse

/-- Does the list start with the two given characters? -/
def startsWith2 (a b : Char) : List Char → Bool
  | x :: y :: _ => x = a && y = b
  | _ => false

/-- `pathStr.replace(/\\\\/g, '\\')`: left-to-right, non-overlapping. -/
def collapseBB : List Char → List Char
  | [] => []
  | [a] => [a]
  | a :: b :: t =>
    if a = '\\' && b = '\\' then '\\' :: collapseBB t
    else a :: collapseBB (b :: t)

/-- Normalize backslashes but preserve UNC prefixes. -/
def normalizeBackslashes (l : List Char) : List Char :=
  if startsWith2 '\\' '\\' l then l else collapseBB l

/-- `p.split(sep)` (JS `String.prototype.split` with a single-character
separator: keeps empty segments). -/
def splitChar (sep : Char) : List Char → List (List Char)
  | [] => [[]]
  | c :: r =>
    if c = sep then [] :: splitChar sep r
    else
      match splitChar sep r with
      | s :: ss => (c :: s) :: ss
      | [] => [[c]]

/-- `p.split(/[\\\/]/)`: split at every separator character. -/
def splitOnSeps : List Char → List (List Char)
  | [] => [[]]
  | c :: r =>
    if isSepChar c then [] :: splitOnSeps r
    else
      match splitOnSeps r with
      | s :: ss => (c :: s) :: ss
      | [] => [[c]]

/-- `/\.[a-zA-Z0-9]{1,5}$/.test(pathStr)`: the trailing alphanumeric run has
length 1–5 and is preceded by a dot. -/
def hasExtension15 (l : List Char) : Bool :=
  let r := l.reverse
  let run := r.takeWhile Char.isAlphanum
  1 ≤ run.length && run.length ≤ 5 && (r.drop run.length).head? = some '.'

/-- Double-slash handling: keep UNC shares, de-double URL-style paths. -/
def normalizeDoubleSlash (l : List Char) : List Char :=
  if startsWith2 '/' '/' l && !startsWith2 '\\' '\\' l then
    let segments := (splitChar '/' l).filter (fun s => s.length > 0)
    if hasExtension15 l || segments.length > 2 then l.drop 1 else l
  else l

/-- `pathStr.replace(/^https?:\/\/[^\/]+/, '')`. -/
def stripScheme (l : List Char) : List Char :=
  if "http://".data.isPrefixOf l then
    let rest := l.drop 7
    if rest.head?.any (fun c => c != '/') then rest.dropWhile (fun c => c != '/')
    else l
  else if "https://".data.isPrefixOf l then
    let rest := l.drop 8
    if rest.head?.any (fun c => c != '/') then rest.dropWhile (fun c => c != '/')
    else l
  else l

/-- `[a-zA-Z0-9.-]`. -/
def isDomainChar (c : Char) : Bool := c.isAlphanum || c = '.' || c = '-'

/-- Bare domain prefix: `^[a-zA-Z0-9.-]+\.[a-zA-Z]{2,}\/`. -/
def domainPrefixM : M :=
  mSeqs [mClsPlus isDomainChar, mChr '.', mClsRep Char.isAlpha 2 none, mChr '/']

/-- Anchored test for the bare domain prefix (the code first `match`es the
anchored pattern, then `replace`s the same match with `'/'`). -/
def domainPrefixTest (l : List Char) : Bool := !(domainPrefixM ([], l)).isEmpty

/-- `pathStr.replace(/^[a-zA-Z0-9.-]+\.[a-zA-Z]{2,}\//, '/')`. -/
def stripDomainPrefix (l : List Char) : List Char :=
  match matchFirst domainPrefixM [] l with
  | some n => '/' :: l.drop n
  | none => l

/-- The full ordered cleanup chain applied to one raw match. -/
def cleanupL (p : List Char) : List Char :=
  let s1 := stripLocator p
  let s2 := stripQueryFragment s1
  let s3 := unwrapOrStrip s2
  let s4 := normalizeBackslashes s3
  let s5 := normalizeDoubleSlash s4
  let s6 := stripScheme s5
  stripDomainPrefix s6

/-- String-level cleanup chain. -/
def cleanupStr (s : String) : String := String.mk (cleanupL s.data)

/-! ## Ignore policy (src/core.ts, isIgnored) -/

def DEFAULT_IGNORE_DIRS : List (List Char) :=
  ["node_modules".data, ".git".data, "dist".data, "build".data]

def DEFAULT_IGNORE_FILES : List (List Char) :=
  ["package-lock.json".data, "bun.lockb".data]

/-- Node's `path.basename` (posix): drop trailing `/`s, then take the part
after the last remaining `/`. -/
def posixBasename (l : List Char) : List Char :=
  let r := l.reverse.dropWhile (fun c => c = '/')
  (r.takeWhile (fun c => c != '/')).reverse

/-- A path is ignored iff some separator-delimited segment is an ignored
directory name, or its basename is an ignored file name (exact match). -/
def isIgnoredL (p : List Char) : Bool :=
  (splitOnSeps p).any (fun seg => DEFAULT_IGNORE_DIRS.contains seg) ||
  DEFAULT_IGNORE_FILES.contains (posixBasename p)

def isIgnored (p : String) : Bool := isIgnoredL p.data

/-! ## Multi-line raw-match expansion (step 2 of extractPathsWithRegex) -/

/-- `[a-zA-Z0-9_./\\-]`. -/
def isInnerPathChar (c : Char) : Bool :=
  c.isAlphanum || c = '_' || c = '.' || c = '/' || c = '\\' || c = '-'

/-- `[a-zA-Z0-9_./\\-]+(?:\/[a-zA-Z0-9_.-]+)*\.[a-zA-Z0-9]{1,5}(?::\d+(?::\d+)?)?`. -/
def innerPathM : M :=
  mSeqs [mClsPlus isInnerPathChar,
         mStar (mSeq (mChr '/') (mClsPlus isFNameChar)),
         mChr '.', mClsRep Char.isAlphanum 1 (some 5),
         mOpt (mSeqs [mChr ':', mClsPlus Char.isDigit,
                      mOpt (mSeq (mChr ':') (mClsPlus Char.isDigit))])]

/-- `String.prototype.trim`. -/
def trimWs (l : List Char) : List Char :=
  ((l.dropWhile isJsWs).reverse.dropWhile isJsWs).reverse

/-- A raw match containing a line break is re-scanned with the inner path
pattern and each hit is trimmed; other matches pass through unchanged. -/
def expandMultiline (m : List Char) : List (List Char) :=
  if m.contains '\n' then (matchAllM innerPathM m).map trimWs else [m]

/-! ## Noise filter (step 5 of extractPathsWithRegex) -/

/-- `^[a-zA-Z]?v?\d+(?:\.\d+)*$`. -/
def versionM : M :=
  mSeqs [mOpt (mCls Char.isAlpha), mOpt (mChr 'v'), mClsPlus Char.isDigit,
         mStar (mSeq (mChr '.') (mClsPlus Char.isDigit)), mEnd]

/-- `^[a-f0-9]{8}-[a-f0-9]{4}-[a-f0-9]{4}-[a-f0-9]{4}-[a-f0-9]{12}$/i`. -/
def uuidM : M :=
  mSeqs [mClsRep isHexI 8 (some 8), mChr '-', mClsRep isHexI 4 (some 4),
         mChr '-', mClsRep isHexI 4 (some 4), mChr '-', mClsRep isHexI 4 (some 4),
         mChr '-', mClsRep isHexI 12 (some 12), mEnd]

/-- `^[a-f0-9]{7,40}$/i`. -/
def hashM : M := mSeqs [mClsRep isHexI 7 (some 40), mEnd]

/-- `[a-zA-Z0-9._%+-]`. -/
def isEmailLocalChar (c : Char) : Bool :=
  c.isAlphanum || c = '.' || c = '_' || c = '%' || c = '+' || c = '-'

/-- `^[a-zA-Z0-9._%+-]+@[a-zA-Z0-9.-]+\.[a-zA-Z]{2,}$`. -/
def emailM : M :=
  mSeqs [mClsPlus isEmailLocalChar, mChr '@', mClsPlus isDomainChar,
         mChr '.', mClsRep Char.isAlpha 2 none, mEnd]

def versionTest (l : List Char) : Bool := testAnchored versionM l

def uuidTest (l : List Char) : Bool := testAnchored uuidM l

def hashTest (l : List Char) : Bool := testAnchored hashM l

def emailTest (l : List Char) : Bool := testAnchored emailM l

/-- `^[a-zA-Z0-9]{1,5}$` (the file-extension shape for the last dot-part). -/
def shortAlnumM : M := mSeqs [mClsRep Char.isAlphanum 1 (some 5), mEnd]

/-- Known non-extension method names. -/
def NOISE_DENYLIST : List (List Char) :=
  ["setAnalysisResults".data, "updateGitignore".data]

/-- The predicate of `filteredPaths.filter(p => ...)` in
extractPathsWithRegex (true = keep the candidate). -/
def noiseKeepL (p : List Char) : Bool :=
  if p.contains '\n' || p.length > 200 then false
  else if p.contains '.' && !p.contains '/' && !p.contains '\\' &&
          (let parts := splitChar '.' p
           parts.length > 1 &&
           (let lastPart := parts.getLastD []
            !testAnchored shortAlnumM lastPart || NOISE_DENYLIST.contains lastPart))
  then false
  else if p.head? = some '"' && p.getLast? = some '"' then false
  else if ("./".data.isPrefixOf p || "../".data.isPrefixOf p) && !p.contains ' ' &&
          !hasExtension15 p && (splitChar '/' p).length ≤ 3 then false
  else !versionTest p && !uuidTest p && !hashTest p && !emailTest p &&
       !(trimWs p).isEmpty

/-! ## Split-path reassembly (src/core.ts, fixSplitPaths) -/

/-- `/\).*\.[a-zA-Z0-9]+$/` tested on the following candidate. -/
def closeParenExtM : M :=
  mSeqs [mChr ')', mClsStar isDotChar, mChr '.', mClsPlus Char.isAlphanum, mEnd]

def closesParenExt (l : List Char) : Bool := (findLeftmost closeParenExtM l).isSome

/-- `combined.replace(/ new\)\.([a-zA-Z0-9]+)$/, ' (new).$1')`: the only
possible match ends at the end of the string, with the capture equal to the
maximal trailing alphanumeric run. -/
def fixNewParen (l : List Char) : List Char :=
  let r := l.reverse
  let ext := r.takeWhile Char.isAlphanum
  let rest := r.drop ext.length
  if !ext.isEmpty && " new).".data.reverse.isPrefixOf rest then
    (rest.drop 6).reverse ++ " (new).".data ++ ext.reverse
  else l

/-- Merge two split candidates: space join, drop a leading stray `(`,
restore the `" (new).ext"` shape. -/
def mergeSplit (c n : List Char) : List Char :=
  let combined := c ++ ' ' :: n
  let combined := if combined.head? = some '(' then combined.drop 1 else combined
  fixNewParen combined

/-- The pairwise merge condition: `current && (current.startsWith('(') ||
current.endsWith('(')) && paths[i+1] && paths[i+1].match(/\).*\.[a-zA-Z0-9]+$/)`. -/
def splitPairCond (c n : List Char) : Bool :=
  !c.isEmpty && (c.head? = some '(' || c.getLast? = some '(') &&
  !n.isEmpty && closesParenExt n

/-- The reassembly scan: a matching pair consumes two candidates and emits
their merge; otherwise the current candidate passes through. -/
def fixSplitL : List (List Char) → List (List Char)
  | c :: n :: rest =>
    if splitPairCond c n then mergeSplit c n :: fixSplitL rest
    else c :: fixSplitL (n :: rest)
  | [x] => [x]
  | [] => []

def fixSplitPaths (paths : List String) : List String :=
  (fixSplitL (paths.map String.data)).map String.mk

/-! ## The pattern extractor (src/core.ts, extractPathsWithRegex) -/

/-- Steps 1–5: raw matches, multi-line expansion, cleanup, ignore filter,
noise filter — everything before split-path reassembly. -/
def regexValidPathsL (text : List Char) : List (List Char) :=
  let ms := matchAllM pathRegexM text
  let extractedPaths := ms.flatMap expandMultiline
  let cleanedPaths := extractedPaths.map cleanupL
  let filteredPaths := cleanedPaths.filter (fun p => !isIgnoredL p)
  filteredPaths.filter noiseKeepL

def extractPathsWithRegexL (text : List Char) : List (List Char) :=
  fixSplitL (regexValidPathsL text)

def extractPathsWithRegex (text : String) : List String :=
  (extractPathsWithRegexL text.data).map String.mk

/-! ## Node `path` model (posix) -/

/-- `path.isAbsolute` (posix): starts with `/`. -/
def isAbsoluteL : List Char → Bool
  | '/' :: _ => true
  | _ => false

def isAbsolute (p : String) : Bool := isAbsoluteL p.data

/-- Node's `normalizeString` segment processor: drop empty and `.` segments;
`..` pops the last kept segment, or (above the root) is kept only when
`allowUp` (i.e. for relative inputs).  The accumulator holds the kept
segments reversed. -/
def normSegsGo (allowUp : Bool) : List (List Char) → List (List Char) → List (List Char)
  | acc, [] => acc.reverse
  | acc, s :: rest =>
    if s = [] || s = ['.'] then normSegsGo allowUp acc rest
    else if s = ['.', '.'] then
      match acc with
      | t :: ts =>
        if t = ['.', '.'] then
          if allowUp then normSegsGo allowUp (s :: t :: ts) rest
          else normSegsGo allowUp (t :: ts) rest
        else normSegsGo allowUp ts rest
      | [] =>
        if allowUp then normSegsGo allowUp [s] rest else normSegsGo allowUp [] rest
    else normSegsGo allowUp (s :: acc) rest

/-- Rebuild a path from segments (`Array.prototype.join('/')`). -/
def joinSegs : List (List Char) → List Char
  | [] => []
  | [s] => s
  | s :: rest => s ++ '/' :: joinSegs rest

/-- Node `path.resolve(cwd, p)` (posix).  The right-to-left accumulation
stops at `p` when `p` is absolute, else prepends `cwd`; `process.cwd()` is
not modelled because every call site passes an absolute `cwd` (its default
is `process.cwd()` itself). -/
def posixResolveL (cwd p : List Char) : List Char :=
  let joined := if isAbsoluteL p then p else cwd ++ '/' :: p
  let abs := isAbsoluteL joined
  let segs := normSegsGo (!abs) [] (splitChar '/' joined)
  if abs then '/' :: joinSegs segs
  else if segs.isEmpty then ['.'] else joinSegs segs

def posixResolve (cwd p : String) : String :=
  String.mk (posixResolveL cwd.data p.data)

/-- Normalized segments of an (absolute) path. -/
def absSegments (p : List Char) : List (List Char) :=
  normSegsGo false [] (splitChar '/' p)

/-- After dropping the common prefix: `..` for every remaining source
segment, then the remaining target segments. -/
def relSegsGo : List (List Char) → List (List Char) → List (List Char)
  | f :: fs, t :: ts =>
    if f = t then relSegsGo fs ts
    else (f :: fs).map (fun _ => ['.', '.']) ++ t :: ts
  | [], ts => ts
  | fs, [] => fs.map (fun _ => ['.', '.'])

/-- Node `path.relative(src, dst)` (posix) for absolute arguments — the walk
emits `path.join(cwd, name)` below the absolute `cwd`, so both arguments of
the one call site are absolute. -/
def posixRelative (src dst : String) : String :=
  String.mk (joinSegs (relSegsGo (absSegments src.data) (absSegments dst.data)))

/-! ## Fuzzy extractor (src/core.ts, extractPathsWithFuzzy) -/

/-- `\b` between two optional characters. -/
def boundaryB (l r : Option Char) : Bool := wordOpt l != wordOpt r

/-- Match of the whole-word basename pattern at one position: the escaped
basename matches itself literally, flanked by `\b` on both sides. -/
def wholeWordAt (needle : List Char) (pv r : List Char) : Bool :=
  match needle with
  | [] => boundaryB pv.head? r.head?
  | c :: cs =>
    needle.isPrefixOf r && boundaryB pv.head? (some c) &&
    boundaryB (some (cs.getLastD c)) ((r.drop needle.length).head?)

def wholeWordGo (needle : List Char) : List Char → List Char → Bool
  | pv, [] => wholeWordAt needle pv []
  | pv, c :: r => wholeWordAt needle pv (c :: r) || wholeWordGo needle (c :: pv) r

/-- `text.match(basenameRegex)` is truthy: the basename occurs somewhere in
the text as a whole word. -/
def wholeWordOccurs (needle text : List Char) : Bool := wholeWordGo needle [] text

def dedupFirstGo (seen : List String) : List String → List String
  | [] => []
  | x :: rest =>
    if x ∈ seen then dedupFirstGo seen rest
    else x :: dedupFirstGo (x :: seen) rest

/-- `Array.from(new Set(xs))`: first occurrences, in encounter order. -/
def dedupFirst (xs : List String) : List String := dedupFirstGo [] xs

/-- The per-file body of the fuzzy loop: relativize, drop if ignored, keep
when the basename occurs in the text as a whole word. -/
def fuzzyCandidate (text cwd absolutePath : String) : Option String :=
  let relativePath := posixRelative cwd absolutePath
  if isIgnored relativePath then none
  else if wholeWordOccurs (posixBasename relativePath.data) text.data then
    some relativePath
  else none

/-- src/core.ts extractPathsWithFuzzy.  The output of the recursive
directory walk (`await walk(cwd)`, an I/O action) is passed in as
`allFilePaths`; the `Set` of found paths keeps first insertions in order. -/
def extractPathsWithFuzzy (allFilePaths : List String) (text cwd : String) :
    List String :=
  dedupFirst (allFilePaths.filterMap (fuzzyCandidate text cwd))

/-! ## Strategy combiner (src/core.ts, extractPaths) -/

/-- The option record after the destructuring defaults of `extractPaths`
(`cwd` defaults to `process.cwd()`, so it carries no default here); at
runtime `strategy` is a string. -/
structure Options where
  absolute : Bool := false
  cwd : String
  unique : Bool := true
  strategy : String := "fuzzy"

/-- src/core.ts extractPaths: run the selected extractors (pattern output
first), deduplicate if `unique`, then resolve against `cwd` if `absolute`. -/
def extractPaths (allFilePaths : List String) (text : String) (opts : Options) :
    List String :=
  let combinedPaths :=
    (if opts.strategy = "regex" || opts.strategy = "both" then
      extractPathsWithRegex text
     else []) ++
    (if opts.strategy = "fuzzy" || opts.strategy = "both" then
      extractPathsWithFuzzy allFilePaths text opts.cwd
     else [])
  let uniquePaths := if opts.unique then dedupFirst combinedPaths else combinedPaths
  if opts.absolute then uniquePaths.map (posixResolve opts.cwd) else uniquePaths

/-! ## Verifier (src/core.ts, verifyPaths) -/

/-- The probe target: `path.isAbsolute(p) ? p : path.resolve(cwd, p)`. -/
def resolveForVerify (cwd p : String) : String :=
  if isAbsolute p then p else posixResolve cwd p

/-- One existence check: `fs.access(absolutePath)` in try/catch — `ok` means
the file exists, any `error` (not just "not found") yields `false`. -/
def checkAccess (probe : String → Except String Unit) (cwd p : String) : Bool :=
  match probe (resolveForVerify cwd p) with
  | Except.ok _ => true
  | Except.error _ => false

/-- `paths.filter((_, i) => existenceChecks[i])`. -/
def filterFlags : List String → List Bool → List String
  | p :: ps, b :: bs => if b then p :: filterFlags ps bs else filterFlags ps bs
  | _, _ => []

/-- src/core.ts verifyPaths.  The existence probes are mutually independent
and joined in input order, so the concurrent fan-out/gather is modelled by
the sequential map; the filesystem (with its possible per-path errors) is
the `probe` argument. -/
def verifyPaths (probe : String → Except String Unit) (paths : List String)
    (cwd : String) : List String :=
  let existenceChecks := paths.map (checkAccess probe cwd)
  filterFlags paths existenceChecks

/-! ## CLI strategy validation (src/cli.ts, run) -/

/-- src/cli.ts lines 104–110: `if (strategy && !['regex', 'fuzzy',
'both'].includes(strategy))` print a descriptive error and `process.exit(1)`.
Returns the error message when the CLI fails fast, `none` when the value is
passed on to the core (note `''` is falsy and skips validation). -/
def validateStrategy (strategy : String) : Option String :=
  if strategy ≠ "" ∧ strategy ∉ (["regex", "fuzzy", "both"] : List String) then
    some ("Error: Invalid strategy '" ++ strategy ++
      "'. Must be one of: regex, fuzzy, both.")
  else none

/-! ## Spec-side definitions

`combineSpec` restates spec §4.3's pipeline in its own stage vocabulary, to
be compared with `extractPaths`; `cleanStable` and `isNormAbsL` carve out
the input classes for the amended fixed-point and identity claims. -/

/-- Spec §4.3: "runs Pattern Extractor … selected by strategy". -/
def patternStage (text strategy : String) : List String :=
  if strategy = "regex" || strategy = "both" then extractPathsWithRegex text
  else []

/-- Spec §4.3: "runs … Fuzzy Extractor … selected by strategy". -/
def fuzzyStage (allFilePaths : List String) (text cwd strategy : String) :
    List String :=
  if strategy = "fuzzy" || strategy = "both" then
    extractPathsWithFuzzy allFilePaths text cwd
  else []

/-- Spec §4.3: "deduplicates by exact string equality if dedupe". -/
def dedupeStage (dedupe : Bool) (xs : List String) : List String :=
  if dedupe then dedupFirst xs else xs

/-- Spec §4.3: "then absolutizes against baseDir if makeAbsolute". -/
def absolutizeStage (makeAbsolute : Bool) (cwd : String) (xs : List String) :
    List String :=
  if makeAbsolute then xs.map (posixResolve cwd) else xs

/-- The Strategy Combiner as spec §4.3 words it: concatenate pattern output
first and fuzzy output second, deduplicate, and only then absolutize. -/
def combineSpec (allFilePaths : List String) (text : String) (o : Options) :
    List String :=
  absolutizeStage o.absolute o.cwd
    (dedupeStage o.unique
      (patternStage text o.strategy ++
       fuzzyStage allFilePaths text o.cwd o.strategy))

/-- Plain path characters: alphanumerics, `/`, `.`, `_`, `-`. -/
def plainPathChar (c : Char) : Bool :=
  c.isAlphanum || c = '/' || c = '.' || c = '_' || c = '-'

/-- Path Strings on which the cleanup chain provably acts as the identity:
plain path alphabet, final character not `.`, not starting with `//`, and
not of the bare-domain-prefix shape. -/
def cleanStable (l : List Char) : Bool :=
  l.all plainPathChar && l.getLast? ≠ some '.' &&
  !startsWith2 '/' '/' l && !domainPrefixTest l

/-- An absolute path in normal form: leading `/` and every `/`-separated
segment nonempty and neither `.` nor `..`. -/
def isNormAbsL (l : List Char) : Bool :=
  match l with
  | c :: cs =>
    c = '/' &&
    (splitChar '/' cs).all (fun s => !s.isEmpty && s ≠ ['.'] && s ≠ ['.', '.'])
  | [] => false

/-! # Helper lemmas -/

theorem filterFlags_map (f : String → Bool) (xs : List String) :
    filterFlags xs (xs.map f) = xs.filter f := by
  induction xs with
  | nil => rfl
  | cons x xs ih =>
    simp only [List.map_cons, filterFlags]
    cases hf : f x
    · simp [List.filter_cons, hf, ih]
    · simp [List.filter_cons, hf, ih]

theorem mem_dedupFirstGo (x : String) (xs : List String) :
    ∀ seen : List String, x ∈ dedupFirstGo seen xs ↔ x ∈ xs ∧ x ∉ seen := by
  induction xs with
  | nil => intro seen; simp [dedupFirstGo]
  | cons y ys ih =>
    intro seen
    by_cases hy : y ∈ seen
    · rw [dedupFirstGo, if_pos hy, ih seen]
      constructor
      · rintro ⟨h1, h2⟩
        exact ⟨List.mem_cons_of_mem y h1, h2⟩
      · rintro ⟨h1, h2⟩
        rcases List.mem_cons.mp h1 with rfl | h1
        · exact absurd hy h2
        · exact ⟨h1, h2⟩
    · rw [dedupFirstGo, if_neg hy]
      constructor
      · intro h
        rcases List.mem_cons.mp h with rfl | h
        · exact ⟨List.mem_cons_self x ys, hy⟩
        · have h' := (ih (y :: seen)).mp h

          exact ⟨List.mem_cons_of_mem y h'.1,
                 fun hs => h'.2 (List.mem_cons_of_mem y hs)⟩
      · rintro ⟨h1, h2⟩
        by_cases hxy : x = y
        · subst hxy
          exact List.mem_cons_self x _
        · rcases List.mem_cons.mp h1 with rfl | h1
          · exact absurd rfl hxy
          · refine List.mem_cons_of_mem y ((ih (y :: seen)).mpr ⟨h1, ?_⟩)
            intro hs
            rcases List.mem_cons.mp hs with rfl | hs
            · exact hxy rfl
            · exact h2 hs

theorem nodup_dedupFirstGo (xs : List String) :
    ∀ seen : List String, (dedupFirstGo seen xs).Nodup := by
  induction xs with
  | nil => intro seen; simp [dedupFirstGo]
  | cons y ys ih =>
    intro seen
    by_cases hy : y ∈ seen
    · simpa only [dedupFirstGo, if_pos hy] using ih seen
    · rw [dedupFirstGo, if_neg hy]
      refine List.Nodup.cons ?_ (ih (y :: seen))
      intro hmem
      have := (mem_dedupFirstGo y ys (y :: seen)).mp hmem
      exact this.2 (List.mem_cons_self y seen)

theorem nodup_dedupFirst (xs : List String) : (dedupFirst xs).Nodup :=
  nodup_dedupFirstGo xs []

theorem mem_dedupFirst (x : String) (xs : List String) :
    x ∈ dedupFirst xs ↔ x ∈ xs := by
  have := mem_dedupFirstGo x xs []
  simpa [dedupFirst] using this

theorem mk_data (s : String) : String.mk s.data = s := rfl

theorem plainPathChar_ne (c d : Char) (h : plainPathChar c = true)
    (hd : plainPathChar d = false) : c ≠ d := by
  rintro rfl
  rw [h] at hd
  exact absurd hd (by decide)

theorem findLeftmostGo_clsSeq_none (f : Char → Bool) (k : M) (r : List Char)
    (h : ∀ c ∈ r, f c = false) :
    ∀ pv pos, findLeftmostGo (mSeq (mCls f) k) pv r pos = none := by
  induction r with
  | nil => intro pv pos; rfl
  | cons c r' ih =>
    intro pv pos
    have hc : f c = false := h c (List.mem_cons_self c r')
    have hmf : matchFirst (mSeq (mCls f) k) pv (c :: r') = none := by
      simp [matchFirst, mSeq, mCls, hc]
    simp only [findLeftmostGo, hmf]
    exact ih (fun d hd => h d (List.mem_cons_of_mem c hd)) (c :: pv) (pos + 1)

theorem stripLocator_id (l : List Char)
    (h : ∀ c ∈ l, isColonParen c = false) : stripLocator l = l := by
  have hnone : findLeftmost locatorM l = none :=
    findLeftmostGo_clsSeq_none isColonParen _ l h [] 0
  simp [stripLocator, hnone]

theorem stripQueryFragment_id (l : List Char)
    (h : ∀ c ∈ l, (c = '?' || c = '#') = false) : stripQueryFragment l = l := by
  have hnone : findLeftmost queryFragM l = none :=
    findLeftmostGo_clsSeq_none (fun c => c = '?' || c = '#') _ l h [] 0
  simp [stripQueryFragment, hnone]

theorem unwrapOrStrip_id (l : List Char)
    (hall : ∀ c ∈ l, plainPathChar c = true)
    (hlast : l.getLast? ≠ some '.') : unwrapOrStrip l = l := by
  cases l with
  | nil => rfl
  | cons a t =>
    have ha := hall a (List.mem_cons_self a t)
    have ha1 : a ≠ '"' := plainPathChar_ne a '"' ha (by decide)
    have ha2 : a ≠ '\'' := plainPathChar_ne a '\'' ha (by decide)
    have ha3 : a ≠ '(' := plainPathChar_ne a '(' ha (by decide)
    have hw1 : wrappedBy '"' '"' (a :: t) = false := by
      simp [wrappedBy, ha1]
    have hw2 : wrappedBy '\'' '\'' (a :: t) = false := by
      simp [wrappedBy, ha2]
    have hw3 : wrappedBy '(' ')' (a :: t) = false := by
      simp [wrappedBy, ha3]
    rw [unwrapOrStrip, hw1, hw2, hw3]
    simp only [Bool.or_self, Bool.false_eq_true, if_false]
    have hlp : leadPunct a = false := by
      have n1 : a ≠ '[' := plainPathChar_ne a '[' ha (by decide)
      have n2 : a ≠ '<' := plainPathChar_ne a '<' ha (by decide)
      have n3 : a ≠ '\x7b' := plainPathChar_ne a '\x7b' ha (by decide)
      simp [leadPunct, ha1, ha2, n1, n2, n3]
    rw [List.dropWhile_cons_of_neg (by simp [hlp])]
    cases hrev : (a :: t).reverse with
    | nil => exact absurd hrev (by simp)
    | cons b rb =>
      have hbl : (a :: t).getLast? = some b := by
        rw [← List.head?_reverse, hrev]
        rfl
      have hbmem : b ∈ a :: t := by
        have : b ∈ (a :: t).reverse := by
          rw [hrev]
          exact List.mem_cons_self b rb
        exact List.mem_reverse.mp this
      have hb := hall b hbmem
      have hbd : b ≠ '.' := by
        intro e
        rw [e] at hbl
        exact hlast hbl
      have htp : trailPunct b = false := by
        have n1 : b ≠ '"' := plainPathChar_ne b '"' hb (by decide)
        have n2 : b ≠ '\'' := plainPathChar_ne b '\'' hb (by decide)
        have n3 : b ≠ ']' := plainPathChar_ne b ']' hb (by decide)
        have n4 : b ≠ '>' := plainPathChar_ne b '>' hb (by decide)
        have n5 : b ≠ ',' := plainPathChar_ne b ',' hb (by decide)
        have n6 : b ≠ ';' := plainPathChar_ne b ';' hb (by decide)
        have n7 : b ≠ '\x7d' := plainPathChar_ne b '\x7d' hb (by decide)
        simp [trailPunct, n1, n2, n3, n4, n5, n6, n7, hbd]
      rw [List.dropWhile_cons_of_neg (by simp [htp])]
      have h2 := congrArg List.reverse hrev
      rw [List.reverse_reverse] at h2
      exact h2.symm

theorem collapseBB_id : ∀ l : List Char, (∀ c ∈ l, c ≠ '\\') → collapseBB l = l
  | [], _ => rfl
  | [_], _ => rfl
  | a :: b :: t, h => by
    have ha : a ≠ '\\' := h a (List.mem_cons_self a (b :: t))
    rw [collapseBB, if_neg (by simp [ha])]
    rw [collapseBB_id (b :: t) (fun c hc => h c (List.mem_cons_of_mem a hc))]

theorem normalizeBackslashes_id (l : List Char)
    (h : ∀ c ∈ l, c ≠ '\\') : normalizeBackslashes l = l := by
  have hcl := collapseBB_id l h
  unfold normalizeBackslashes
  cases hs : startsWith2 '\\' '\\' l
  · simp [hcl]
  · simp [hcl]

theorem normalizeDoubleSlash_id (l : List Char)
    (h : startsWith2 '/' '/' l = false) : normalizeDoubleSlash l = l := by
  simp [normalizeDoubleSlash, h]

theorem stripScheme_id (l : List Char)
    (hall : ∀ c ∈ l, plainPathChar c = true) : stripScheme l = l := by
  have h1 : "http://".data.isPrefixOf l = false := by
    by_contra hcon
    rw [Bool.not_eq_false] at hcon
    have hpre := List.isPrefixOf_iff_prefix.mp hcon
    have hmem : ':' ∈ l := hpre.subset (by decide)
    exact absurd (hall ':' hmem) (by decide)
  have h2 : "https://".data.isPrefixOf l = false := by
    by_contra hcon
    rw [Bool.not_eq_false] at hcon
    have hpre := List.isPrefixOf_iff_prefix.mp hcon
    have hmem : ':' ∈ l := hpre.subset (by decide)
    exact absurd (hall ':' hmem) (by decide)
  simp [stripScheme, h1, h2]

theorem stripDomainPrefix_id (l : List Char)
    (h : domainPrefixTest l = false) : stripDomainPrefix l = l := by
  have h0 : domainPrefixM ([], l) = [] := by
    have h' := h
    unfold domainPrefixTest at h'
    simpa using h'
  simp [stripDomainPrefix, matchFirst, h0]

theorem cleanupL_id (l : List Char) (h : cleanStable l = true) :
    cleanupL l = l := by
  have h' := h
  unfold cleanStable at h'
  rw [Bool.and_eq_true, Bool.and_eq_true, Bool.and_eq_true] at h'
  obtain ⟨⟨⟨hplain, hlast⟩, hds⟩, hdom⟩ := h'
  have hall : ∀ c ∈ l, plainPathChar c = true := List.all_eq_true.mp hplain
  have hlast' : l.getLast? ≠ some '.' := by simpa using hlast
  have hds' : startsWith2 '/' '/' l = false := by simpa using hds
  have hdom' : domainPrefixTest l = false := by simpa using hdom
  have e1 : stripLocator l = l := by
    refine stripLocator_id l fun c hc => ?_
    have hc' := hall c hc
    have n1 : c ≠ ':' := plainPathChar_ne c ':' hc' (by decide)
    have n2 : c ≠ '(' := plainPathChar_ne c '(' hc' (by decide)
    simp [isColonParen, n1, n2]
  have e2 : stripQueryFragment l = l := by
    refine stripQueryFragment_id l fun c hc => ?_
    have hc' := hall c hc
    have n1 : c ≠ '?' := plainPathChar_ne c '?' hc' (by decide)
    have n2 : c ≠ '#' := plainPathChar_ne c '#' hc' (by decide)
    simp [n1, n2]
  have e3 : unwrapOrStrip l = l := unwrapOrStrip_id l hall hlast'
  have e4 : normalizeBackslashes l = l := by
    refine normalizeBackslashes_id l fun c hc => ?_
    exact plainPathChar_ne c '\\' (hall c hc) (by decide)
  have e5 : normalizeDoubleSlash l = l := normalizeDoubleSlash_id l hds'
  have e6 : stripScheme l = l := stripScheme_id l hall
  have e7 : stripDomainPrefix l = l := stripDomainPrefix_id l hdom'
  unfold cleanupL
  simp only [e1, e2, e3, e4, e5, e6, e7]

theorem fuzzyCandidate_eq_some (text cwd a p : String) :
    fuzzyCandidate text cwd a = some p ↔
      (posixRelative cwd a = p ∧ isIgnored p = false ∧
       wholeWordOccurs (posixBasename p.data) text.data = true) := by
  constructor
  · intro h
    simp only [fuzzyCandidate] at h
    split at h
    next hig => exact absurd h (by simp)
    next hig =>
      split at h
      next hww =>
        injection h with h
        subst h
        exact ⟨rfl, by simpa using hig, hww⟩
      next hww => exact absurd h (by simp)
  · rintro ⟨hrel, hig, hww⟩
    simp only [fuzzyCandidate, hrel]
    rw [if_neg (by simp [hig]), if_pos hww]

theorem splitChar_ne_nil (sep : Char) (l : List Char) : splitChar sep l ≠ [] := by
  cases l with
  | nil => simp [splitChar]
  | cons c r =>
    rw [splitChar]
    split
    · simp
    · split <;> simp

theorem joinSegs_cons_cons (c : Char) (s : List Char) (ss : List (List Char)) :
    joinSegs ((c :: s) :: ss) = c :: joinSegs (s :: ss) := by
  cases ss with
  | nil => rfl
  | cons t ts => rfl

theorem joinSegs_splitChar (l : List Char) :
    joinSegs (splitChar '/' l) = l := by
  induction l with
  | nil => rfl
  | cons c r ih =>
    rw [splitChar]
    by_cases hc : c = '/'
    · rw [if_pos hc]
      have hstep : joinSegs ([] :: splitChar '/' r) =
          '/' :: joinSegs (splitChar '/' r) := by
        cases hs : splitChar '/' r with
        | nil => exact absurd hs (splitChar_ne_nil '/' r)
        | cons s ss => rfl
      rw [hstep, ih, hc]
    · rw [if_neg hc]
      cases hs : splitChar '/' r with
      | nil => exact absurd hs (splitChar_ne_nil '/' r)
      | cons s ss =>
        rw [joinSegs_cons_cons, ← hs, ih]

theorem normSegsGo_cons (allowUp : Bool) (acc : List (List Char))
    (s : List Char) (rest : List (List Char)) :
    normSegsGo allowUp acc (s :: rest) =
      if s = [] || s = ['.'] then normSegsGo allowUp acc rest
      else if s = ['.', '.'] then
        (match acc with
         | t :: ts =>
           if t = ['.', '.'] then
             if allowUp then normSegsGo allowUp (s :: t :: ts) rest
             else normSegsGo allowUp (t :: ts) rest
           else normSegsGo allowUp ts rest
         | [] =>
           if allowUp then normSegsGo allowUp [s] rest
           else normSegsGo allowUp [] rest)
      else normSegsGo allowUp (s :: acc) rest := rfl

theorem normSegsGo_good (allowUp : Bool) (segs : List (List Char))
    (h : ∀ s ∈ segs, s ≠ [] ∧ s ≠ ['.'] ∧ s ≠ ['.', '.']) :
    ∀ acc, normSegsGo allowUp acc segs = acc.reverse ++ segs := by
  induction segs with
  | nil => intro acc; simp [normSegsGo]
  | cons s rest ih =>
    intro acc
    obtain ⟨h1, h2, h3⟩ := h s (List.mem_cons_self s rest)
    rw [normSegsGo_cons, if_neg (by simp [h1, h2]), if_neg h3,
        ih (fun t ht => h t (List.mem_cons_of_mem s ht)) (s :: acc)]
    simp

theorem posixResolveL_norm_id (cwd p : List Char) (h : isNormAbsL p = true) :
    posixResolveL cwd p = p := by
  cases p with
  | nil => simp [isNormAbsL] at h
  | cons c cs =>
    rw [isNormAbsL, Bool.and_eq_true] at h
    obtain ⟨hc, hall⟩ := h
    have hc' : c = '/' := by simpa using hc
    subst hc'
    have hgood : ∀ s ∈ splitChar '/' cs, s ≠ [] ∧ s ≠ ['.'] ∧ s ≠ ['.', '.'] := by
      intro s hs
      have hspec := List.all_eq_true.mp hall s hs
      refine ⟨?_, ?_, ?_⟩ <;> intro e <;> subst e <;> simp at hspec
    have hstep : posixResolveL cwd ('/' :: cs) =
        '/' :: joinSegs (normSegsGo false [] (splitChar '/' cs)) := rfl
    rw [hstep, normSegsGo_good false (splitChar '/' cs) hgood [],
        List.reverse_nil, List.nil_append, joinSegs_splitChar]

/-! # Claim theorems -/

/-- C1: for every probe (filesystem), path list and base directory, the
Verifier returns an order-preserving sublist of its input — it is exactly
the stable filter by the per-item existence check — `verify [] = []`, and a
path whose probe fails with any error is dropped without affecting the rest
of the batch. -/
theorem C1_verify_stable_filter (probe : String → Except String Unit)
    (paths : List String) (cwd : String) :
    (verifyPaths probe paths cwd).Sublist paths ∧
    verifyPaths probe [] cwd = [] ∧
    verifyPaths probe paths cwd = paths.filter (checkAccess probe cwd) ∧
    (∀ p e, probe (resolveForVerify cwd p) = Except.error e →
      p ∉ verifyPaths probe paths cwd) := by
  have heq : verifyPaths probe paths cwd = paths.filter (checkAccess probe cwd) :=
    filterFlags_map (checkAccess probe cwd) paths
  refine ⟨?_, rfl, heq, ?_⟩
  · rw [heq]
    exact List.filter_sublist paths
  · intro p e hp hmem
    rw [heq] at hmem
    have hkeep := List.of_mem_filter hmem
    rw [checkAccess, hp] at hkeep
    exact Bool.false_ne_true hkeep

/-- Witness for C1: a concrete probe under which the failing path is
dropped while the existing one is kept. -/
theorem C1_verify_stable_filter_witness :
    "missing.ts" ∉ verifyPaths
      (fun s => if s = "/base/x.ts" then Except.ok () else Except.error "ENOENT")
      ["x.ts", "missing.ts"] "/base" :=
  (C1_verify_stable_filter
      (fun s => if s = "/base/x.ts" then Except.ok () else Except.error "ENOENT")
      ["x.ts", "missing.ts"] "/base").2.2.2 "missing.ts" "ENOENT" (by rfl)

/-- C2 as stated is false: with dedupe=true and makeAbsolute=true the output
can hold duplicate strings, because deduplication happens before resolution
and the two distinct extracted spellings `./a.ts` and `a.ts` resolve to the
same absolute path. -/
theorem C2_counterexample :
    extractPaths [] "./a.ts a.ts"
      { absolute := true, cwd := "/base", unique := true, strategy := "regex" } =
      ["/base/a.ts", "/base/a.ts"] ∧
    ¬ (extractPaths [] "./a.ts a.ts"
      { absolute := true, cwd := "/base", unique := true,
        strategy := "regex" }).Nodup :=
  ⟨by decide, by decide⟩

/-- C2 amended: with dedupe=true the returned list has no duplicate strings
whenever makeAbsolute is false (for any walk output, text and strategy);
with makeAbsolute=true, resolution after deduplication can identify distinct
spellings. -/
theorem C2_dedupe_nodup (allFilePaths : List String) (text : String)
    (o : Options) (hu : o.unique = true) (ha : o.absolute = false) :
    (extractPaths allFilePaths text o).Nodup := by
  unfold extractPaths
  rw [hu, ha]
  simp only [if_true, Bool.false_eq_true, if_false]
  exact nodup_dedupFirst _

/-- Witness for C2 amended, at the counterexample's text with
makeAbsolute=false. -/
theorem C2_dedupe_nodup_witness :
    (extractPaths [] "./a.ts a.ts"
      { absolute := false, cwd := "/base", unique := true,
        strategy := "regex" }).Nodup :=
  C2_dedupe_nodup [] "./a.ts a.ts"
    { absolute := false, cwd := "/base", unique := true, strategy := "regex" }
    rfl rfl

/-- C3: for every walk output, text and options, the Strategy Combiner
equals the spec's staged pipeline — it runs exactly the extractors selected
by the strategy, concatenates pattern output first and fuzzy output second,
deduplicates by exact string equality when dedupe is set, and absolutizes
against the base directory strictly after deduplication. -/
theorem C3_combiner_pipeline (allFilePaths : List String) (text : String)
    (o : Options) :
    extractPaths allFilePaths text o = combineSpec allFilePaths text o := rfl

/-- C4 fails as stated: the cleanup chain is not idempotent on its own
image — cleaning the raw match `"'a/b'"` yields the Path String `'a/b'`,
and running cleanup on that already-cleaned string unwraps the second quote
layer, giving `a/b`. -/
theorem C4_counterexample :
    cleanupStr (cleanupStr "\"'a/b'\"") ≠ cleanupStr "\"'a/b'\"" := by decide

/-- C4 amended: the cleanup chain is the identity — hence a fixed point and
idempotent — on Path Strings over the plain path alphabet (alphanumerics,
`/`, `.`, `_`, `-`) that do not end in a dot, do not start with a double
slash and do not carry a bare domain prefix; in general a second pass can
strip further (e.g. a nested quote wrapper). -/
theorem C4_cleanup_fixed_point (s : String) (h : cleanStable s.data = true) :
    cleanupStr s = s ∧ cleanupStr (cleanupStr s) = cleanupStr s := by
  have h1 : cleanupStr s = s := by
    unfold cleanupStr
    rw [cleanupL_id s.data h]
  exact ⟨h1, by rw [h1, h1]⟩

/-- Witness for C4 amended at a concrete cleaned path. -/
theorem C4_cleanup_fixed_point_witness :
    cleanupStr "src/core.ts" = "src/core.ts" ∧
    cleanupStr (cleanupStr "src/core.ts") = cleanupStr "src/core.ts" :=
  C4_cleanup_fixed_point "src/core.ts" (by decide)

/-- C5 fails as stated: split-path reassembly runs after the ignore filter,
and merging the two unignored candidates produced by the text
`(dist/x y)/z.tsx` yields `dist/x y)/z.tsx`, which the Pattern Extractor
returns although its first segment is the ignored directory `dist`. -/
theorem C5_counterexample :
    extractPathsWithRegex "(dist/x y)/z.tsx" = ["dist/x y)/z.tsx"] ∧
    isIgnored "dist/x y)/z.tsx" = true := ⟨by decide, by decide⟩

/-- C5 amended: the Fuzzy Extractor never returns an ignored path; the
Pattern Extractor filters ignored paths before split-path reassembly, so
every candidate entering reassembly is unignored (only reassembled merges
can violate the policy); and matching is exact, so `distribution/file.js`
is not suppressed. -/
theorem C5_ignore_policy (files : List String) (text cwd : String) :
    (∀ p ∈ extractPathsWithFuzzy files text cwd, isIgnored p = false) ∧
    (∀ t : String, ∀ p ∈ regexValidPathsL t.data, isIgnoredL p = false) ∧
    isIgnored "distribution/file.js" = false := by
  refine ⟨?_, ?_, by decide⟩
  · intro p hp
    rw [extractPathsWithFuzzy, mem_dedupFirst] at hp
    obtain ⟨a, _, hfa⟩ := List.mem_filterMap.mp hp
    exact ((fuzzyCandidate_eq_some text cwd a p).mp hfa).2.1
  · intro t p hp
    simp only [regexValidPathsL] at hp
    have hp2 := List.mem_of_mem_filter hp
    have hkeep := List.of_mem_filter hp2
    simpa using hkeep

/-- Witness for C5 amended: the fuzzy result of a concrete walk is
unignored. -/
theorem C5_ignore_policy_witness :
    isIgnored "src/engine.ts" = false :=
  (C5_ignore_policy ["/proj/src/engine.ts"] "editing engine.ts" "/proj").1
    "src/engine.ts" (by decide)

/-- C6: the Fuzzy Extractor returns exactly the baseDir-relative paths of
walked files that are not ignored and whose basename occurs in the text as
a whole word; on the spec's scenario with files src/core.ts and
src/engine.ts it returns exactly [src/engine.ts]. -/
theorem C6_fuzzy_characterization :
    (∀ (files : List String) (text cwd p : String),
      p ∈ extractPathsWithFuzzy files text cwd ↔
        ((∃ f ∈ files, posixRelative cwd f = p) ∧ isIgnored p = false ∧
         wholeWordOccurs (posixBasename p.data) text.data = true)) ∧
    extractPathsWithFuzzy ["/proj/src/core.ts", "/proj/src/engine.ts"]
      "I was editing engine.ts and also missing.ts" "/proj" =
      ["src/engine.ts"] := by
  refine ⟨?_, by decide⟩
  intro files text cwd p
  rw [extractPathsWithFuzzy, mem_dedupFirst, List.mem_filterMap]
  constructor
  · rintro ⟨a, ha, hfa⟩
    obtain ⟨hrel, hig, hww⟩ := (fuzzyCandidate_eq_some text cwd a p).mp hfa
    exact ⟨⟨a, ha, hrel⟩, hig, hww⟩
  · rintro ⟨⟨f, hf, hrel⟩, hig, hww⟩
    exact ⟨f, hf, (fuzzyCandidate_eq_some text cwd f p).mpr ⟨hrel, hig, hww⟩⟩

/-- Witness for C6: membership of the scenario's expected path, through the
characterization. -/
theorem C6_fuzzy_characterization_witness :
    "src/engine.ts" ∈ extractPathsWithFuzzy
      ["/proj/src/core.ts", "/proj/src/engine.ts"]
      "I was editing engine.ts and also missing.ts" "/proj" :=
  (C6_fuzzy_characterization.1 ["/proj/src/core.ts", "/proj/src/engine.ts"]
      "I was editing engine.ts and also missing.ts" "/proj" "src/engine.ts").mpr
    ⟨⟨"/proj/src/engine.ts", by decide, by decide⟩, by decide, by decide⟩

/-- C7: split-path reassembly merges a candidate that opens an unbalanced
parenthesis with a following candidate that closes one and ends in an
extension — consuming two candidates and emitting the space-joined merge,
with a leading stray parenthesis dropped and the literal variant shape
restored — while non-matching pairs pass through unchanged; the spec's
scenario yields exactly `src/components/Button (new).tsx`. -/
theorem C7_split_reassembly :
    fixSplitPaths ["(src/components/Button", "new).tsx"] =
      ["src/components/Button (new).tsx"] ∧
    (∀ (c n : String) (rest : List String),
      splitPairCond c.data n.data = true →
      fixSplitPaths (c :: n :: rest) =
        String.mk (mergeSplit c.data n.data) :: fixSplitPaths rest) ∧
    (∀ (c n : String) (rest : List String),
      splitPairCond c.data n.data = false →
      fixSplitPaths (c :: n :: rest) = c :: fixSplitPaths (n :: rest)) := by
  refine ⟨by decide, ?_, ?_⟩
  · intro c n rest h
    simp [fixSplitPaths, fixSplitL, h, mk_data]
  · intro c n rest h
    simp [fixSplitPaths, fixSplitL, h, mk_data]

/-- Witness for C7: one merging step at concrete candidates. -/
theorem C7_split_reassembly_witness :
    fixSplitPaths ["(a/b", "c).ts"] =
      [String.mk (mergeSplit "(a/b".data "c).ts".data)] := by
  rw [C7_split_reassembly.2.1 "(a/b" "c).ts" [] (by decide)]
  rfl

/-- C8: the noise filter drops every candidate that exceeds the maximum
length or contains an embedded newline, or matches the bare version-string,
UUID, 7–40-character hex-hash or email shape; and on the spec's scenario the
Pattern Extractor excludes the email and returns exactly `a/b/c.com`. -/
theorem C8_noise_filter (p : String)
    (h : 200 < p.data.length ∨ '\n' ∈ p.data ∨ versionTest p.data = true ∨
         uuidTest p.data = true ∨ hashTest p.data = true ∨
         emailTest p.data = true) :
    noiseKeepL p.data = false ∧
    extractPathsWithRegex "Contact me at user@domain.com. ... a/b/c.com" =
      ["a/b/c.com"] := by
  refine ⟨?_, by decide⟩
  rcases h with h | h | h | h | h | h <;>
    · unfold noiseKeepL
      split_ifs <;> simp_all

/-- Witness for C8: the email from the spec's scenario is dropped by the
noise filter. -/
theorem C8_noise_filter_witness :
    noiseKeepL "user@domain.com".data = false :=
  (C8_noise_filter "user@domain.com"
      (Or.inr (Or.inr (Or.inr (Or.inr (Or.inr (by decide))))))).1

/-- C9 fails as stated: an invalid strategy value that reaches the core does
not fail fast — the core is total, silently runs no extractor, and returns
the empty list (for the same text the valid strategy `regex` returns
`a.ts`, so the empty result is the silent no-extractor outcome). -/
theorem C9_counterexample :
    extractPaths [] "see a.ts"
      { absolute := false, cwd := "/base", unique := true,
        strategy := "bogus" } = [] ∧
    extractPaths [] "see a.ts"
      { absolute := false, cwd := "/base", unique := true,
        strategy := "regex" } = ["a.ts"] := ⟨by decide, by decide⟩

/-- C9 amended: the CLI validates the strategy before calling the core and
fails fast with a descriptive error for every non-empty invalid value (the
empty string is falsy and skips validation); the core itself never fails on
an invalid value — it runs no extractor and returns the empty list. -/
theorem C9_strategy_validation (s : String) (files : List String)
    (text : String) (o : Options) (hs : s ≠ "")
    (hsv : s ∉ (["regex", "fuzzy", "both"] : List String))
    (ho : o.strategy ∉ (["regex", "fuzzy", "both"] : List String)) :
    validateStrategy s =
      some ("Error: Invalid strategy '" ++ s ++
        "'. Must be one of: regex, fuzzy, both.") ∧
    extractPaths files text o = [] := by
  constructor
  · rw [validateStrategy, if_pos ⟨hs, hsv⟩]
  · have h1 : o.strategy ≠ "regex" ∧ o.strategy ≠ "fuzzy" ∧ o.strategy ≠ "both" := by
      simpa using ho
    unfold extractPaths
    simp [h1.1, h1.2.1, h1.2.2, dedupFirst, dedupFirstGo]

/-- Witness for C9 amended, at the strategy value `bogus`. -/
theorem C9_strategy_validation_witness :
    validateStrategy "bogus" =
      some ("Error: Invalid strategy '" ++ "bogus" ++
        "'. Must be one of: regex, fuzzy, both.") ∧
    extractPaths [] "see a.ts"
      { absolute := false, cwd := "/base", unique := true,
        strategy := "bogus" } = [] :=
  C9_strategy_validation "bogus" [] "see a.ts"
    { absolute := false, cwd := "/base", unique := true, strategy := "bogus" }
    (by decide) (by decide) (by decide)

/-- C10 fails as stated: resolution normalizes, so an extracted
already-absolute path that is not in normal form is altered by
absolutization — `/a/../b.ts` is extracted verbatim by the Pattern
Extractor but returned as `/b.ts` when makeAbsolute is set. -/
theorem C10_counterexample :
    extractPathsWithRegex "/a/../b.ts" = ["/a/../b.ts"] ∧
    extractPaths [] "/a/../b.ts"
      { absolute := true, cwd := "/base", unique := true,
        strategy := "regex" } = ["/b.ts"] := ⟨by decide, by decide⟩

/-- C10 amended: resolving against the base directory is the identity on
already-absolute paths in normal form (no empty, `.` or `..` segments) —
non-normal absolute paths are normalized — and the Verifier probes any
already-absolute input path as-is, never joining it to the base
directory. -/
theorem C10_absolute_identity (cwd p : String) :
    (isNormAbsL p.data = true → posixResolve cwd p = p) ∧
    (isAbsolute p = true → resolveForVerify cwd p = p) := by
  constructor
  · intro h
    unfold posixResolve
    rw [posixResolveL_norm_id cwd.data p.data h]
  · intro h
    simp [resolveForVerify, h]

/-- Witness for C10 amended at concrete absolute paths. -/
theorem C10_absolute_identity_witness :
    posixResolve "/base" "/a/b.ts" = "/a/b.ts" ∧
    resolveForVerify "/base" "/x.ts" = "/x.ts" :=
  ⟨(C10_absolute_identity "/base" "/a/b.ts").1 (by decide),
   (C10_absolute_identity "/base" "/x.ts").2 (by decide)⟩

end Pathfish
